import Mathlib

/-!
Verification of the composite-shape overlap engine of ShapeUnion.h.

The engine is shallowly embedded: real-valued scalars are modelled by
rationals, the external collaborators (quaternion math, OBB predicate,
BoundingHierarchy/GPUTree topology, primitive shape overlap test) are
modelled from the spec as abstract executable data, and every function of
ShapeUnion.h that the claims mention is translated directly from the
source.  The traversal loop is fuel-indexed; stack overflow and fuel
exhaustion are distinguished outcomes.
-/

namespace hpmc

/-- Modelled from the spec: the external 3D vector math collaborator
(vec3 of VectorMath.h, which is not among the provided sources).  Real
scalars are modelled by rationals. -/
structure Vec3 where
  x : ℚ
  y : ℚ
  z : ℚ
deriving DecidableEq

namespace Vec3

/-- Componentwise sum. -/
def add (u v : Vec3) : Vec3 := ⟨u.x + v.x, u.y + v.y, u.z + v.z⟩

/-- Componentwise difference. -/
def sub (u v : Vec3) : Vec3 := ⟨u.x - v.x, u.y - v.y, u.z - v.z⟩

/-- Componentwise negation. -/
def neg (u : Vec3) : Vec3 := ⟨-u.x, -u.y, -u.z⟩

/-- Euclidean dot product. -/
def dot (u v : Vec3) : ℚ := u.x * v.x + u.y * v.y + u.z * v.z

/-- The zero vector. -/
def zero : Vec3 := ⟨0, 0, 0⟩

instance : Neg Vec3 := ⟨neg⟩

instance : Add Vec3 := ⟨add⟩

instance : Sub Vec3 := ⟨sub⟩

end Vec3

/-- Modelled from the spec: the external quaternion collaborator
(quat of VectorMath.h, which is not among the provided sources). -/
structure Quat where
  s : ℚ
  x : ℚ
  y : ℚ
  z : ℚ
deriving DecidableEq

namespace Quat

/-- The identity quaternion, the value of the default constructor quat(). -/
def one : Quat := ⟨1, 0, 0, 0⟩

/-- Hamilton product. -/
def mul (p q : Quat) : Quat :=
  ⟨p.s * q.s - p.x * q.x - p.y * q.y - p.z * q.z,
   p.s * q.x + p.x * q.s + p.y * q.z - p.z * q.y,
   p.s * q.y - p.x * q.z + p.y * q.s + p.z * q.x,
   p.s * q.z + p.x * q.y - p.y * q.x + p.z * q.s⟩

/-- Quaternion conjugate. -/
def conj (q : Quat) : Quat := ⟨q.s, -q.x, -q.y, -q.z⟩

instance : Mul Quat := ⟨mul⟩

/-- Modelled from the spec: rotation of a vector by a (unit) quaternion,
the vector part of q * (0, v) * conj q. -/
def rotate (q : Quat) (v : Vec3) : Vec3 :=
  let p := mul (mul q ⟨0, v.x, v.y, v.z⟩) (conj q)
  ⟨p.x, p.y, p.z⟩

end Quat

/-- Modelled from the spec: the read-only BoundingHierarchy interface of
§6 (GPUTree.h is not among the provided sources).  `nextSibling` models
advanceNode(node, true), the "next node" traversal primitive. -/
structure GPUTree (O : Type) where
  numNodes : ℕ
  numLeaves : ℕ
  leafNode : ℕ → ℕ
  leftChild : ℕ → ℕ
  nextSibling : ℕ → ℕ
  isLeaf : ℕ → Bool
  getOBB : ℕ → O
  getNumParticles : ℕ → ℕ
  getParticle : ℕ → ℕ → ℕ

/-- Modelled from the spec: the external OBB collaborator (OBB.h is not
among the provided sources): an exactness-unspecified overlap predicate
and an affine re-expression of a box in another frame. -/
structure OBBOps (O : Type) where
  overlap : O → O → Bool
  affineTransform : O → Quat → Vec3 → O

/-- Modelled from the spec: the pluggable primitive-shape capability
interface of §6.  A primitive shape value is an orientation quaternion
paired with an opaque parameter block of type P.  testOverlap returns the
overlap boolean together with the number of numerical-degeneracy
increments it reports through its error-counter reference. -/
structure PrimOps (P : Type) where
  hasOrientation : P → Bool
  testOverlap : Vec3 → Quat → P → Quat → P → Bool × ℕ

/-- Data structure for a shape composed of a union of multiple shapes,
translated from detail::union_params of ShapeUnion.h.  The ManagedArray
members are modelled as total functions from indices. -/
structure union_params (O P : Type) where
  tree : GPUTree O
  mpos : ℕ → Vec3
  morientation : ℕ → Quat
  mparams : ℕ → P
  moverlap : ℕ → ℕ
  diameter : ℚ
  N : ℕ
  ignore : ℕ

/-- A composite shape instance, translated from ShapeUnion of
ShapeUnion.h: a world-frame orientation plus the shared parameters. -/
structure ShapeUnion (O P : Type) where
  orientation : Quat
  members : union_params O P

/-- Translated from ShapeUnion::getCircumsphereDiameter. -/
def ShapeUnion.getCircumsphereDiameter (u : ShapeUnion O P) : ℚ :=
  u.members.diameter

/-- Translated from ShapeUnion::hasOrientation (ShapeUnion.h lines
108-122): with a single member whose position satisfies
pos.x == 0 && pos.y == pos.x && pos.z == pos.x, return that member
shape's own anisotropy flag; otherwise return true. -/
def ShapeUnion.hasOrientation (prim : PrimOps P) (u : ShapeUnion O P) : Bool :=
  if u.members.N = 1 then
    let pos := u.members.mpos 0
    if pos.x = 0 ∧ pos.y = pos.x ∧ pos.z = pos.x then
      prim.hasOrientation (u.members.mparams 0)
    else
      true
  else
    true

/-- Translated from check_circumsphere_overlap (ShapeUnion.h lines
163-172). -/
def check_circumsphere_overlap (r_ab : Vec3) (a b : ShapeUnion O P) : Bool :=
  let dr := r_ab
  let rsq := Vec3.dot dr dr
  let DaDb := a.getCircumsphereDiameter + b.getCircumsphereDiameter
  decide (rsq * 4 ≤ DaDb * DaDb)

/-- Translated from test_narrow_phase_overlap (ShapeUnion.h lines
174-226).  The early return on the first overlapping pair is the
short-circuit of List.any; the per-pair local error counter of line 214
is discarded exactly as in the source (see narrow_err_total for the
instrumented sum of the discarded increments). -/
def test_narrow_phase_overlap (prim : PrimOps P) (dr : Vec3)
    (a b : ShapeUnion O P) (cur_node_a cur_node_b : ℕ) : Bool :=
  let r_ab := Quat.rotate (Quat.conj b.orientation) dr
  let na := a.members.tree.getNumParticles cur_node_a
  let nb := b.members.tree.getNumParticles cur_node_b
  (List.range na).any fun i =>
    let ishape := a.members.tree.getParticle cur_node_a i
    let orient_i :=
      if prim.hasOrientation (a.members.mparams ishape) then
        ((Quat.conj b.orientation).mul a.orientation).mul
          (a.members.morientation ishape)
      else Quat.one
    let pos_i :=
      Quat.rotate ((Quat.conj b.orientation).mul a.orientation)
        (a.members.mpos ishape) - r_ab
    let overlap_i := a.members.moverlap ishape
    (List.range nb).any fun j =>
      let jshape := b.members.tree.getParticle cur_node_b j
      let orient_j :=
        if prim.hasOrientation (b.members.mparams jshape) then
          b.members.morientation jshape
        else Quat.one
      let overlap_j := b.members.moverlap jshape
      if overlap_i.land overlap_j ≠ 0 then
        let r_ij := b.members.mpos jshape - pos_i
        (prim.testOverlap r_ij orient_i (a.members.mparams ishape)
          orient_j (b.members.mparams jshape)).1
      else false

end hpmc


namespace hpmc

/-- Outcome of the fuel-indexed traversal loop: a boolean result, an
out-of-bounds stack access (the source performs unchecked pointer
arithmetic on a 64-entry array), or fuel exhaustion. -/
inductive StackRes where
  | ok : Bool → StackRes
  | overflow : StackRes
  | outOfFuel : StackRes
deriving DecidableEq

/-- Translated from the do-while loop of query_node (ShapeUnion.h lines
262-291).  The stack is the list of entries with the top at the head;
`nar` is the narrow-phase test with everything but b's node fixed.  A
push onto a full 64-entry stack, or a pop of an empty stack, is the
out-of-bounds access StackRes.overflow.  The source checks the do-while
condition cur_node_b != numNodes after every body, on the popped value
as well as on a descend target. -/
def query_loop (ops : OBBOps O) (tb : GPUTree O) (obb_a : O)
    (nar : ℕ → Bool) : ℕ → ℕ → List ℕ → StackRes
  | 0, _, _ => .outOfFuel
  | fuel + 1, cur_node_b, stack =>
    let child_l := tb.leftChild cur_node_b
    let child_r := tb.nextSibling child_l
    let overlap_l := ops.overlap obb_a (tb.getOBB child_l)
    let overlap_r := ops.overlap obb_a (tb.getOBB child_r)
    if overlap_l && tb.isLeaf child_l && nar child_l then .ok true
    else if overlap_r && tb.isLeaf child_r && nar child_r then .ok true
    else
      let traverse_l := overlap_l && !tb.isLeaf child_l
      let traverse_r := overlap_r && !tb.isLeaf child_r
      if traverse_l || traverse_r then
        let next := if traverse_l then child_l else child_r
        if traverse_l && traverse_r then
          if 64 ≤ stack.length then .overflow
          else if next = tb.numNodes then .ok false
          else query_loop ops tb obb_a nar fuel next (child_r :: stack)
        else
          if next = tb.numNodes then .ok false
          else query_loop ops tb obb_a nar fuel next stack
      else
        match stack with
        | [] => .overflow
        | top :: rest =>
          if top = tb.numNodes then .ok false
          else query_loop ops tb obb_a nar fuel top rest

/-- Translated from query_node (ShapeUnion.h lines 238-294): transform
a's node box into b's body frame, handle the single-node hierarchy
directly, and otherwise run the stack loop from b's root 0 with the
stack seeded with the sentinel getNumNodes(). -/
def query_node (ops : OBBOps O) (prim : PrimOps P) (fuel : ℕ)
    (cur_node_a : ℕ) (r_ab : Vec3) (a b : ShapeUnion O P) : StackRes :=
  let dr := r_ab
  let tree_b := b.members.tree
  let obb_a :=
    ops.affineTransform (a.members.tree.getOBB cur_node_a)
      ((Quat.conj b.orientation).mul a.orientation)
      (Quat.rotate (Quat.conj b.orientation) (Vec3.neg dr))
  if tree_b.numNodes = 1 then
    .ok (ops.overlap obb_a (tree_b.getOBB 0) &&
      test_narrow_phase_overlap prim dr a b cur_node_a 0)
  else
    query_loop ops tree_b obb_a
      (fun nb => test_narrow_phase_overlap prim dr a b cur_node_a nb)
      fuel 0 [tree_b.numNodes]

/-- The per-leaf loop of test_overlap (ShapeUnion.h lines 313-317 and
321-325) on the host path (offset 0, stride 1): scan the given leaf
indices in order, return true at the first leaf whose traversal returns
true, propagate a non-boolean traversal outcome as none. -/
def test_overlap_leaves (q : ℕ → StackRes) : List ℕ → Option Bool
  | [] => some false
  | i :: rest =>
    match q i with
    | .ok true => some true
    | .ok false => test_overlap_leaves q rest
    | _ => none

/-- Translated from the ShapeUnion test_overlap (ShapeUnion.h lines
296-329): drive with a's leaves when getNumLeaves() of a is at most that
of b, otherwise with b's leaves and the negated offset.  The err
reference of the source is returned unchanged because the source never
writes to it (the increments of the primitive tests are discarded into
the local counter of line 214). -/
def test_overlap (ops : OBBOps O) (prim : PrimOps P) (fuel : ℕ)
    (r_ab : Vec3) (a b : ShapeUnion O P) (err : ℕ) : Option (Bool × ℕ) :=
  if a.members.tree.numLeaves ≤ b.members.tree.numLeaves then
    Option.map (fun res => (res, err))
      (test_overlap_leaves
        (fun i => query_node ops prim fuel (a.members.tree.leafNode i) r_ab a b)
        (List.range a.members.tree.numLeaves))
  else
    Option.map (fun res => (res, err))
      (test_overlap_leaves
        (fun i => query_node ops prim fuel (b.members.tree.leafNode i)
          (Vec3.neg r_ab) b a)
        (List.range b.members.tree.numLeaves))

end hpmc

namespace hpmc

/-- Follows the spec's words (§4.3), as the spec side of the refinement
claim about the traversal loop: at each step, test both children of the
current node against the transformed box, run the narrow phase on each
overlapping leaf child (returning true on a positive result), and apply
the transition rule — if neither child qualifies for traversal pop the
stack (a pop of the sentinel terminates the loop returning false), if
exactly one qualifies descend into it, and if both qualify descend into
the left child and push the right one onto the fixed-capacity stack. -/
def spec_traversal (ops : OBBOps O) (tb : GPUTree O) (obb_a : O)
    (nar : ℕ → Bool) (sentinel : ℕ) : ℕ → ℕ → List ℕ → StackRes
  | 0, _, _ => .outOfFuel
  | fuel + 1, cur, stack =>
    let cl := tb.leftChild cur
    let cr := tb.nextSibling cl
    if ops.overlap obb_a (tb.getOBB cl) && tb.isLeaf cl && nar cl then .ok true
    else if ops.overlap obb_a (tb.getOBB cr) && tb.isLeaf cr && nar cr then
      .ok true
    else
      match ops.overlap obb_a (tb.getOBB cl) && !tb.isLeaf cl,
            ops.overlap obb_a (tb.getOBB cr) && !tb.isLeaf cr with
      | false, false =>
        match stack with
        | [] => .overflow
        | top :: rest =>
          if top = sentinel then .ok false
          else spec_traversal ops tb obb_a nar sentinel fuel top rest
      | true, false => spec_traversal ops tb obb_a nar sentinel fuel cl stack
      | false, true => spec_traversal ops tb obb_a nar sentinel fuel cr stack
      | true, true =>
        if 64 ≤ stack.length then .overflow
        else spec_traversal ops tb obb_a nar sentinel fuel cl (cr :: stack)

/-- Follows the spec's words (§4.3): the whole dual-tree traversal with
a fixed node of A — transform A's node box into B's body frame, treat a
single-node hierarchy directly, and otherwise run the spec transition
system from B's root with the stack seeded with the sentinel value equal
to B's total node count. -/
def spec_query_node (ops : OBBOps O) (prim : PrimOps P) (fuel : ℕ)
    (cur_node_a : ℕ) (r_ab : Vec3) (a b : ShapeUnion O P) : StackRes :=
  let tree_b := b.members.tree
  let obb_a :=
    ops.affineTransform (a.members.tree.getOBB cur_node_a)
      ((Quat.conj b.orientation).mul a.orientation)
      (Quat.rotate (Quat.conj b.orientation) (Vec3.neg r_ab))
  if tree_b.numNodes = 1 then
    .ok (ops.overlap obb_a (tree_b.getOBB 0) &&
      test_narrow_phase_overlap prim r_ab a b cur_node_a 0)
  else
    spec_traversal ops tree_b obb_a
      (fun nb => test_narrow_phase_overlap prim r_ab a b cur_node_a nb)
      tree_b.numNodes fuel 0 [tree_b.numNodes]

/-- Follows the spec's words (§8, trivial-tree equivalence): the
exhaustive, unpruned, mask-filtered all-pairs scan over the two member
sets, with the same per-pair primitive test and frame transforms as the
narrow phase. -/
def spec_all_pairs (prim : PrimOps P) (r_ab : Vec3)
    (a b : ShapeUnion O P) : Bool :=
  decide (∃ i < a.members.N, ∃ j < b.members.N,
    (a.members.moverlap i).land (b.members.moverlap j) ≠ 0 ∧
    (prim.testOverlap
      (b.members.mpos j -
        (Quat.rotate ((Quat.conj b.orientation).mul a.orientation)
            (a.members.mpos i) -
          Quat.rotate (Quat.conj b.orientation) r_ab))
      (if prim.hasOrientation (a.members.mparams i) then
        ((Quat.conj b.orientation).mul a.orientation).mul
          (a.members.morientation i)
      else Quat.one)
      (a.members.mparams i)
      (if prim.hasOrientation (b.members.mparams j) then
        b.members.morientation j
      else Quat.one)
      (b.members.mparams j)).1 = true)

/-- Scan of a pair list with mask gating and first-overlap short-circuit,
accumulating the error increments of the executed primitive tests. -/
def err_scan (test : ℕ → ℕ → Bool × ℕ) (keep : ℕ → ℕ → Bool) :
    List (ℕ × ℕ) → ℕ
  | [] => 0
  | (i, j) :: rest =>
    if keep i j then
      let r := test i j
      if r.1 then r.2 else r.2 + err_scan test keep rest
    else err_scan test keep rest

/-- Ghost instrumentation of test_narrow_phase_overlap: the total of the
error-counter increments reported by the primitive tests that the scan
executes, with the same iteration order, mask gating and first-overlap
short-circuit as the source.  The source computes each of these
increments into the per-pair local counter declared at ShapeUnion.h line
214 and discards it; nothing is ever added to the caller's counter. -/
def narrow_err_total (prim : PrimOps P) (dr : Vec3) (a b : ShapeUnion O P)
    (cur_node_a cur_node_b : ℕ) : ℕ :=
  let r_ab := Quat.rotate (Quat.conj b.orientation) dr
  let na := a.members.tree.getNumParticles cur_node_a
  let nb := b.members.tree.getNumParticles cur_node_b
  err_scan
    (fun i j =>
      let ishape := a.members.tree.getParticle cur_node_a i
      let jshape := b.members.tree.getParticle cur_node_b j
      prim.testOverlap
        (b.members.mpos jshape -
          (Quat.rotate ((Quat.conj b.orientation).mul a.orientation)
              (a.members.mpos ishape) - r_ab))
        (if prim.hasOrientation (a.members.mparams ishape) then
          ((Quat.conj b.orientation).mul a.orientation).mul
            (a.members.morientation ishape)
        else Quat.one)
        (a.members.mparams ishape)
        (if prim.hasOrientation (b.members.mparams jshape) then
          b.members.morientation jshape
        else Quat.one)
        (b.members.mparams jshape))
    (fun i j =>
      decide ((a.members.moverlap (a.members.tree.getParticle cur_node_a i)).land
        (b.members.moverlap (b.members.tree.getParticle cur_node_b j)) ≠ 0))
    (((List.range na).map fun i => (List.range nb).map fun j => (i, j)).flatten)

/-- Well-formedness data for traversing a hierarchy: a depth function
consistent with the child accessors, a root that is internal whenever
the hierarchy has more than one node, and every depth below the 64-entry
stack capacity (the spec's documented depth-bound precondition). -/
structure WFDepth (t : GPUTree O) (d : ℕ → ℕ) : Prop where
  root_internal : t.numNodes ≠ 1 → t.isLeaf 0 = false
  depth_left : ∀ n, t.isLeaf n = false → d (t.leftChild n) = d n + 1
  depth_right : ∀ n, t.isLeaf n = false →
    d (t.nextSibling (t.leftChild n)) = d n + 1
  depth_bound : ∀ n, d n ≤ 63

/-- Invariant of the traversal-loop state for the stack-safety proof:
the current node is internal, the stack is the sentinel below a run of
pushed internal right children whose depths dominate their positions,
and the stack never outgrows the depth of the current node. -/
def StackInv (t : GPUTree O) (d : ℕ → ℕ) (cur : ℕ) (st : List ℕ) : Prop :=
  t.isLeaf cur = false ∧ st ≠ [] ∧ st.getLast? = some t.numNodes ∧
  st.length ≤ d cur + 1 ∧
  ∀ j, j + 1 < st.length →
    st.length - 1 - j ≤ d (st.getD j 0) ∧ t.isLeaf (st.getD j 0) = false

/-- Invariant of the traversal-loop state for the refinement proof of
the transition system: the current node is internal, the bottom stack
entry is the sentinel and all entries above it are internal nodes. -/
def TravInv (t : GPUTree O) (cur : ℕ) (st : List ℕ) : Prop :=
  t.isLeaf cur = false ∧ st.getLast? = some t.numNodes ∧
  ∀ j, j + 1 < st.length → t.isLeaf (st.getD j 0) = false

/-- Concrete single-node hierarchy over trivial boxes, used only by the
closed evaluation theorems; the recorded leaf count is a free parameter
because the dispatcher reads it before any traversal. -/
def fixTree (numL nparts : ℕ) : GPUTree Unit :=
  { numNodes := 1, numLeaves := numL, leafNode := fun _ => 0,
    leftChild := fun m => m + 1, nextSibling := fun m => m + 1,
    isLeaf := fun _ => true, getOBB := fun _ => (),
    getNumParticles := fun _ => nparts, getParticle := fun _ k => k }

/-- Concrete composite over fixTree, used only by the closed evaluation
theorems: nparts members, all at the origin with identity local
orientation and a common mask. -/
def fixUnion (numL nparts mask : ℕ) (q : Quat) : ShapeUnion Unit Unit :=
  { orientation := q,
    members :=
      { tree := fixTree numL nparts, mpos := fun _ => Vec3.zero,
        morientation := fun _ => Quat.one, mparams := fun _ => (),
        moverlap := fun _ => mask, diameter := 1, N := nparts, ignore := 0 } }

/-- Concrete OBB collaborator whose overlap predicate always holds. -/
def opsTrue : OBBOps Unit := ⟨fun _ _ => true, fun _ _ _ => ()⟩

/-- Concrete primitive test that always reports an overlap. -/
def primHit : PrimOps Unit := ⟨fun _ => true, fun _ _ _ _ _ => (true, 0)⟩

/-- Concrete primitive test that never overlaps but reports one
numerical-degeneracy increment on every invocation. -/
def primErr : PrimOps Unit := ⟨fun _ => true, fun _ _ _ _ _ => (false, 1)⟩

/-- The unit quaternion k, a quarter turn whose conjugate differs from
itself. -/
def qK : Quat := ⟨0, 0, 0, 1⟩

/-- Concrete primitive test that is symmetric under the exchange
convention testOverlap(r, A, B) = testOverlap(-r, B, A) — it ignores the
offset and its orientation predicate is invariant under swapping — but
is frame-dependent: it fires exactly when either orientation equals
conj k. -/
def primFrame : PrimOps Unit :=
  ⟨fun _ => true,
   fun _ q1 _ q2 _ => (decide (q1 = Quat.conj qK ∨ q2 = Quat.conj qK), 0)⟩

/-- Concrete three-node hierarchy (internal root 0 with leaf children 1
and 2), used only by the closed evaluation theorems. -/
def fixDeepTree : GPUTree Unit :=
  { numNodes := 3, numLeaves := 2, leafNode := fun i => i + 1,
    leftChild := fun _ => 1, nextSibling := fun _ => 2,
    isLeaf := fun n => decide (n ≠ 0), getOBB := fun _ => (),
    getNumParticles := fun _ => 1, getParticle := fun _ k => k }

/-- Depth function of fixDeepTree. -/
def fixDepth : ℕ → ℕ := fun n => if n = 0 then 0 else 1

/-- Concrete composite over fixDeepTree, used only by the closed
evaluation theorems. -/
def fixUnionDeep : ShapeUnion Unit Unit :=
  { orientation := Quat.one,
    members :=
      { tree := fixDeepTree, mpos := fun _ => Vec3.zero,
        morientation := fun _ => Quat.one, mparams := fun _ => (),
        moverlap := fun _ => 1, diameter := 1, N := 2, ignore := 0 } }

end hpmc

/-- C3: the broad-phase filter is a pure function of the relative offset
and the two precomputed bounding diameters, true exactly when
4·‖r_ab‖² ≤ (D_a + D_b)²; the inequality is non-strict, so exact
tangency yields true. -/
theorem check_circumsphere_overlap_iff (r_ab : hpmc.Vec3)
    (a b : hpmc.ShapeUnion O P) :
    hpmc.check_circumsphere_overlap r_ab a b = true ↔
      hpmc.Vec3.dot r_ab r_ab * 4 ≤
        (a.members.diameter + b.members.diameter) ^ 2 := by
  unfold hpmc.check_circumsphere_overlap
  simp [hpmc.ShapeUnion.getCircumsphereDiameter, sq]

/-- C10: the composite's hasOrientation query returns the single member's
own orientation flag exactly when there is one member located at the
origin, and true in every other case. -/
theorem hasOrientation_characterization (prim : hpmc.PrimOps P)
    (u : hpmc.ShapeUnion O P) :
    u.hasOrientation prim =
      if u.members.N = 1 ∧ u.members.mpos 0 = hpmc.Vec3.zero then
        prim.hasOrientation (u.members.mparams 0)
      else true := by
  unfold hpmc.ShapeUnion.hasOrientation
  rcases hN : decide (u.members.N = 1) with _ | _
  · simp_all
  · have hN1 : u.members.N = 1 := of_decide_eq_true hN
    rcases u.members.mpos 0 with ⟨px, py, pz⟩
    by_cases hx : px = 0
    · by_cases hy : py = px
      · by_cases hz : pz = px
        · subst hx hy hz
          simp_all [hpmc.Vec3.zero]
        · simp_all [hpmc.Vec3.zero]
      · simp_all [hpmc.Vec3.zero]
    · simp_all [hpmc.Vec3.zero]

theorem vec3_neg_neg (u : hpmc.Vec3) : u.neg.neg = u := by
  simp [hpmc.Vec3.neg]

theorem narrow_iff_exists (prim : hpmc.PrimOps P) (dr : hpmc.Vec3)
    (a b : hpmc.ShapeUnion O P) (nA nB : ℕ) :
    hpmc.test_narrow_phase_overlap prim dr a b nA nB = true ↔
      ∃ i < a.members.tree.getNumParticles nA,
        ∃ j < b.members.tree.getNumParticles nB,
          (a.members.moverlap (a.members.tree.getParticle nA i)).land
            (b.members.moverlap (b.members.tree.getParticle nB j)) ≠ 0 ∧
          (prim.testOverlap
            (b.members.mpos (b.members.tree.getParticle nB j) -
              (hpmc.Quat.rotate
                  ((hpmc.Quat.conj b.orientation).mul a.orientation)
                  (a.members.mpos (a.members.tree.getParticle nA i)) -
                hpmc.Quat.rotate (hpmc.Quat.conj b.orientation) dr))
            (if prim.hasOrientation (a.members.mparams
                (a.members.tree.getParticle nA i)) then
              ((hpmc.Quat.conj b.orientation).mul a.orientation).mul
                (a.members.morientation (a.members.tree.getParticle nA i))
            else hpmc.Quat.one)
            (a.members.mparams (a.members.tree.getParticle nA i))
            (if prim.hasOrientation (b.members.mparams
                (b.members.tree.getParticle nB j)) then
              b.members.morientation (b.members.tree.getParticle nB j)
            else hpmc.Quat.one)
            (b.members.mparams (b.members.tree.getParticle nB j))).1 = true := by
  unfold hpmc.test_narrow_phase_overlap
  simp only [List.any_eq_true, List.mem_range]
  constructor
  · rintro ⟨i, hi, j, hj, hij⟩
    refine ⟨i, hi, j, hj, ?_⟩
    by_cases hc :
        (a.members.moverlap (a.members.tree.getParticle nA i)).land
          (b.members.moverlap (b.members.tree.getParticle nB j)) ≠ 0
    · rw [if_pos hc] at hij
      exact ⟨hc, hij⟩
    · rw [if_neg hc] at hij
      exact absurd hij (by simp)
  · rintro ⟨i, hi, j, hj, hc, hres⟩
    exact ⟨i, hi, j, hj, by rw [if_pos hc]; exact hres⟩

/-- C7: the narrow phase computes the pair geometry exactly as
specified — the offset enters b's local frame as
rotate(conj q_b, r_ab), a mask-surviving member i of a gets the
effective position rotate(conj(q_b)·q_a, memberPosition_a i) minus that
rotated offset and, only for orientation-dependent primitives, the
effective orientation conj(q_b)·q_a·memberOrientation_a i, member j of b
keeps its stored frame data, and the primitive test is invoked with the
relative vector memberPosition_b j minus the effective position of i;
the whole scan is true exactly when some surviving pair tests true. -/
theorem narrow_phase_geometry (prim : hpmc.PrimOps P) (dr : hpmc.Vec3)
    (a b : hpmc.ShapeUnion O P) (nA nB : ℕ) :
    hpmc.test_narrow_phase_overlap prim dr a b nA nB = true ↔
      ∃ i < a.members.tree.getNumParticles nA,
        ∃ j < b.members.tree.getNumParticles nB,
          (a.members.moverlap (a.members.tree.getParticle nA i)).land
            (b.members.moverlap (b.members.tree.getParticle nB j)) ≠ 0 ∧
          (prim.testOverlap
            (b.members.mpos (b.members.tree.getParticle nB j) -
              (hpmc.Quat.rotate
                  ((hpmc.Quat.conj b.orientation).mul a.orientation)
                  (a.members.mpos (a.members.tree.getParticle nA i)) -
                hpmc.Quat.rotate (hpmc.Quat.conj b.orientation) dr))
            (if prim.hasOrientation (a.members.mparams
                (a.members.tree.getParticle nA i)) then
              ((hpmc.Quat.conj b.orientation).mul a.orientation).mul
                (a.members.morientation (a.members.tree.getParticle nA i))
            else hpmc.Quat.one)
            (a.members.mparams (a.members.tree.getParticle nA i))
            (if prim.hasOrientation (b.members.mparams
                (b.members.tree.getParticle nB j)) then
              b.members.morientation (b.members.tree.getParticle nB j)
            else hpmc.Quat.one)
            (b.members.mparams (b.members.tree.getParticle nB j))).1 = true :=
  narrow_iff_exists prim dr a b nA nB

/-- C2 (amended): the top-level overlap decision is symmetric under
exchanging the bodies with a negated offset whenever the two
hierarchies have different leaf counts — the dispatcher then performs
literally the same per-leaf traversals for both argument orders. -/
theorem test_overlap_symm_of_leafcount_ne (ops : hpmc.OBBOps O)
    (prim : hpmc.PrimOps P) (fuel : ℕ) (r : hpmc.Vec3)
    (a b : hpmc.ShapeUnion O P) (err : ℕ)
    (h : a.members.tree.numLeaves ≠ b.members.tree.numLeaves) :
    hpmc.test_overlap ops prim fuel r a b err =
      hpmc.test_overlap ops prim fuel (hpmc.Vec3.neg r) b a err := by
  unfold hpmc.test_overlap
  rcases le_or_lt a.members.tree.numLeaves b.members.tree.numLeaves with h1 | h1
  · have h2 : ¬ b.members.tree.numLeaves ≤ a.members.tree.numLeaves := by omega
    rw [if_pos h1, if_neg h2]
    simp only [vec3_neg_neg]
  · have h2 : ¬ a.members.tree.numLeaves ≤ b.members.tree.numLeaves := by omega
    have h3 : b.members.tree.numLeaves ≤ a.members.tree.numLeaves := by omega
    rw [if_neg h2, if_pos h3]

/-- Witness for the amended C2 theorem at a concrete pair with 1 and 2
leaves. -/
theorem test_overlap_symm_of_leafcount_ne_witness :
    hpmc.test_overlap hpmc.opsTrue hpmc.primHit 1 hpmc.Vec3.zero
        (hpmc.fixUnion 1 1 1 hpmc.Quat.one) (hpmc.fixUnion 2 1 1 hpmc.Quat.one)
        0 =
      hpmc.test_overlap hpmc.opsTrue hpmc.primHit 1
        (hpmc.Vec3.neg hpmc.Vec3.zero)
        (hpmc.fixUnion 2 1 1 hpmc.Quat.one) (hpmc.fixUnion 1 1 1 hpmc.Quat.one)
        0 :=
  test_overlap_symm_of_leafcount_ne _ _ _ _ _ _ _ (by decide)

/-- C2 (counterexample): on equal leaf counts the dispatcher picks
different traversal directions for the two argument orders, and an OBB
predicate and primitive test that are both symmetric — but
frame-dependent — produce different answers: at this concrete input
(two single-member composites, one rotated by the unit quaternion k)
the two calls return true and false. -/
theorem test_overlap_symmetry_cex :
    (∀ o1 o2 : Unit,
      hpmc.opsTrue.overlap o1 o2 = hpmc.opsTrue.overlap o2 o1) ∧
    (∀ (v : hpmc.Vec3) (q1 : hpmc.Quat) (p1 : Unit) (q2 : hpmc.Quat)
        (p2 : Unit),
      hpmc.primFrame.testOverlap v q1 p1 q2 p2 =
        hpmc.primFrame.testOverlap (hpmc.Vec3.neg v) q2 p2 q1 p1) ∧
    (hpmc.fixUnion 1 1 1 hpmc.Quat.one).members.tree.numLeaves =
      (hpmc.fixUnion 1 1 1 hpmc.qK).members.tree.numLeaves ∧
    hpmc.test_overlap hpmc.opsTrue hpmc.primFrame 1 hpmc.Vec3.zero
        (hpmc.fixUnion 1 1 1 hpmc.Quat.one) (hpmc.fixUnion 1 1 1 hpmc.qK) 0 =
      some (true, 0) ∧
    hpmc.test_overlap hpmc.opsTrue hpmc.primFrame 1
        (hpmc.Vec3.neg hpmc.Vec3.zero)
        (hpmc.fixUnion 1 1 1 hpmc.qK) (hpmc.fixUnion 1 1 1 hpmc.Quat.one) 0 =
      some (false, 0) := by
  have hl : Nat.land 1 1 = 1 := by decide
  refine ⟨fun _ _ => rfl, ?_, rfl, ?_, ?_⟩
  · intro v q1 p1 q2 p2
    simp only [hpmc.primFrame, Prod.mk.injEq, and_true]
    rw [decide_eq_decide]
    exact or_comm
  · norm_num [hpmc.test_overlap, hpmc.test_overlap_leaves, hpmc.query_node,
      hpmc.test_narrow_phase_overlap, hpmc.fixUnion, hpmc.fixTree,
      hpmc.opsTrue, hpmc.primFrame, hpmc.Quat.rotate, hpmc.Quat.mul,
      hpmc.Quat.conj, hpmc.Quat.one, hpmc.qK, hpmc.Vec3.zero, hpmc.Vec3.neg,
      hpmc.Vec3.sub, List.range_succ, hl]
  · norm_num [hpmc.test_overlap, hpmc.test_overlap_leaves, hpmc.query_node,
      hpmc.test_narrow_phase_overlap, hpmc.fixUnion, hpmc.fixTree,
      hpmc.opsTrue, hpmc.primFrame, hpmc.Quat.rotate, hpmc.Quat.mul,
      hpmc.Quat.conj, hpmc.Quat.one, hpmc.qK, hpmc.Vec3.zero, hpmc.Vec3.neg,
      hpmc.Vec3.sub, List.range_succ, hl]

theorem test_overlap_leaves_eq_any (q : ℕ → hpmc.StackRes) (l : List ℕ)
    (h : ∀ i ∈ l, ∃ res, q i = .ok res) :
    hpmc.test_overlap_leaves q l =
      some (l.any fun i => q i == .ok true) := by
  induction l with
  | nil => rfl
  | cons x xs ih =>
    obtain ⟨res, hres⟩ := h x (by simp)
    have hxs := ih fun i hi => h i (by simp [hi])
    cases res with
    | true => simp [hpmc.test_overlap_leaves, hres]
    | false => simp [hpmc.test_overlap_leaves, hres, hxs]

/-- C5: the dispatcher drives with the instance whose hierarchy has
fewer leaves (a on a tie), enumerates every leaf of the driving
hierarchy, negates the offset when b drives, and — whenever each leaf's
traversal yields a boolean — returns exactly the OR over the leaves of
those booleans, with the untouched error counter. -/
theorem dispatcher_drives_fewer_leaves (ops : hpmc.OBBOps O)
    (prim : hpmc.PrimOps P) (fuel : ℕ) (r : hpmc.Vec3)
    (a b : hpmc.ShapeUnion O P) (err : ℕ)
    (hq : ∀ i,
      (∃ res, hpmc.query_node ops prim fuel (a.members.tree.leafNode i) r a b =
        .ok res) ∧
      (∃ res, hpmc.query_node ops prim fuel (b.members.tree.leafNode i)
        (hpmc.Vec3.neg r) b a = .ok res)) :
    hpmc.test_overlap ops prim fuel r a b err =
      some
        (if a.members.tree.numLeaves ≤ b.members.tree.numLeaves then
          (List.range a.members.tree.numLeaves).any fun i =>
            hpmc.query_node ops prim fuel (a.members.tree.leafNode i) r a b ==
              .ok true
        else
          (List.range b.members.tree.numLeaves).any fun i =>
            hpmc.query_node ops prim fuel (b.members.tree.leafNode i)
              (hpmc.Vec3.neg r) b a == .ok true,
        err) := by
  unfold hpmc.test_overlap
  by_cases hle : a.members.tree.numLeaves ≤ b.members.tree.numLeaves
  · rw [if_pos hle, if_pos hle,
      test_overlap_leaves_eq_any _ _ fun i _ => (hq i).1]
    rfl
  · rw [if_neg hle, if_neg hle,
      test_overlap_leaves_eq_any _ _ fun i _ => (hq i).2]
    rfl

/-- Witness for the C5 dispatcher theorem at a concrete pair of
single-leaf composites. -/
theorem dispatcher_drives_fewer_leaves_witness :
    hpmc.test_overlap hpmc.opsTrue hpmc.primHit 1 hpmc.Vec3.zero
        (hpmc.fixUnion 1 1 1 hpmc.Quat.one) (hpmc.fixUnion 1 1 1 hpmc.Quat.one)
        7 =
      some
        (if (hpmc.fixUnion 1 1 1 hpmc.Quat.one).members.tree.numLeaves ≤
            (hpmc.fixUnion 1 1 1 hpmc.Quat.one).members.tree.numLeaves then
          (List.range
            (hpmc.fixUnion 1 1 1 hpmc.Quat.one).members.tree.numLeaves).any
            fun i =>
              hpmc.query_node hpmc.opsTrue hpmc.primHit 1
                ((hpmc.fixUnion 1 1 1
                  hpmc.Quat.one).members.tree.leafNode i)
                hpmc.Vec3.zero (hpmc.fixUnion 1 1 1 hpmc.Quat.one)
                (hpmc.fixUnion 1 1 1 hpmc.Quat.one) == .ok true
        else
          (List.range
            (hpmc.fixUnion 1 1 1 hpmc.Quat.one).members.tree.numLeaves).any
            fun i =>
              hpmc.query_node hpmc.opsTrue hpmc.primHit 1
                ((hpmc.fixUnion 1 1 1
                  hpmc.Quat.one).members.tree.leafNode i)
                (hpmc.Vec3.neg hpmc.Vec3.zero)
                (hpmc.fixUnion 1 1 1 hpmc.Quat.one)
                (hpmc.fixUnion 1 1 1 hpmc.Quat.one) == .ok true,
        7) :=
  dispatcher_drives_fewer_leaves _ _ _ _ _ _ _
    (fun _ =>
      ⟨⟨true, by
        show hpmc.query_node hpmc.opsTrue hpmc.primHit 1 0 hpmc.Vec3.zero
            (hpmc.fixUnion 1 1 1 hpmc.Quat.one)
            (hpmc.fixUnion 1 1 1 hpmc.Quat.one) = .ok true
        decide⟩,
      ⟨true, by
        show hpmc.query_node hpmc.opsTrue hpmc.primHit 1 0
            (hpmc.Vec3.neg hpmc.Vec3.zero)
            (hpmc.fixUnion 1 1 1 hpmc.Quat.one)
            (hpmc.fixUnion 1 1 1 hpmc.Quat.one) = .ok true
        decide⟩⟩)

theorem narrow_false_of_mask_disjoint (prim : hpmc.PrimOps P)
    (dr : hpmc.Vec3) (a b : hpmc.ShapeUnion O P) (nA nB : ℕ)
    (hpa : ∀ n k, k < a.members.tree.getNumParticles n →
      a.members.tree.getParticle n k < a.members.N)
    (hpb : ∀ n k, k < b.members.tree.getNumParticles n →
      b.members.tree.getParticle n k < b.members.N)
    (hmask : ∀ i < a.members.N, ∀ j < b.members.N,
      (a.members.moverlap i).land (b.members.moverlap j) = 0) :
    hpmc.test_narrow_phase_overlap prim dr a b nA nB = false := by
  rw [Bool.eq_false_iff]
  intro hcon
  rw [narrow_iff_exists] at hcon
  obtain ⟨i, hi, j, hj, hne, _⟩ := hcon
  exact hne (hmask _ (hpa nA i hi) _ (hpb nB j hj))

theorem query_loop_ne_ok_true (ops : hpmc.OBBOps O) (tb : hpmc.GPUTree O)
    (obb_a : O) (nar : ℕ → Bool) (hnar : ∀ n, nar n = false) :
    ∀ fuel cur st,
      hpmc.query_loop ops tb obb_a nar fuel cur st ≠ .ok true := by
  intro fuel
  induction fuel with
  | zero => intro cur st h; simp [hpmc.query_loop] at h
  | succ n ih =>
    intro cur st h
    rw [hpmc.query_loop.eq_def] at h
    simp only [hnar, Bool.and_false, Bool.false_eq_true, if_false] at h
    repeat' split at h
    all_goals first
      | simp at h
      | exact ih _ _ h

theorem query_node_ne_ok_true (ops : hpmc.OBBOps O) (prim : hpmc.PrimOps P)
    (fuel nA : ℕ) (r : hpmc.Vec3) (a b : hpmc.ShapeUnion O P)
    (hnar : ∀ nb, hpmc.test_narrow_phase_overlap prim r a b nA nb = false) :
    hpmc.query_node ops prim fuel nA r a b ≠ .ok true := by
  unfold hpmc.query_node
  dsimp only
  split
  · simp [hnar 0]
  · exact query_loop_ne_ok_true _ _ _ _ hnar fuel 0 _

theorem test_overlap_leaves_ne_some_true (q : ℕ → hpmc.StackRes)
    (hq : ∀ i, q i ≠ .ok true) :
    ∀ l, hpmc.test_overlap_leaves q l ≠ some true := by
  intro l
  induction l with
  | nil => simp [hpmc.test_overlap_leaves]
  | cons x xs ih =>
    unfold hpmc.test_overlap_leaves
    cases hqx : q x with
    | ok bres =>
      cases bres
      · simpa [hqx] using ih
      · exact absurd hqx (hq x)
    | overflow => simp [hqx]
    | outOfFuel => simp [hqx]

/-- C4: when every member of a and every member of b carry interaction
masks with empty intersection, the top-level overlap test never answers
true — whatever the geometry, the OBB data, the primitive test and the
fuel, a returned result has overlap flag false. -/
theorem mask_gating (ops : hpmc.OBBOps O) (prim : hpmc.PrimOps P)
    (fuel : ℕ) (r : hpmc.Vec3) (a b : hpmc.ShapeUnion O P) (err : ℕ)
    (p : Bool × ℕ)
    (hpa : ∀ n k, k < a.members.tree.getNumParticles n →
      a.members.tree.getParticle n k < a.members.N)
    (hpb : ∀ n k, k < b.members.tree.getNumParticles n →
      b.members.tree.getParticle n k < b.members.N)
    (hmask : ∀ i < a.members.N, ∀ j < b.members.N,
      (a.members.moverlap i).land (b.members.moverlap j) = 0)
    (h : hpmc.test_overlap ops prim fuel r a b err = some p) :
    p.1 = false := by
  have hmask' : ∀ j < b.members.N, ∀ i < a.members.N,
      (b.members.moverlap j).land (a.members.moverlap i) = 0 := by
    intro j hj i hi
    have hcomm : (b.members.moverlap j).land (a.members.moverlap i) =
        (a.members.moverlap i).land (b.members.moverlap j) := Nat.land_comm _ _
    rw [hcomm]
    exact hmask i hi j hj
  have hqa : ∀ i,
      hpmc.query_node ops prim fuel (a.members.tree.leafNode i) r a b ≠
        .ok true :=
    fun i => query_node_ne_ok_true _ _ _ _ _ _ _
      (fun nb => narrow_false_of_mask_disjoint _ _ _ _ _ _ hpa hpb hmask)
  have hqb : ∀ i,
      hpmc.query_node ops prim fuel (b.members.tree.leafNode i)
        (hpmc.Vec3.neg r) b a ≠ .ok true :=
    fun i => query_node_ne_ok_true _ _ _ _ _ _ _
      (fun nb => narrow_false_of_mask_disjoint _ _ _ _ _ _ hpb hpa hmask')
  unfold hpmc.test_overlap at h
  split at h
  all_goals
    obtain ⟨res, hres, hp⟩ := Option.map_eq_some'.mp h
  · cases res with
    | true => exact absurd hres (test_overlap_leaves_ne_some_true _ hqa _)
    | false => rw [← hp]
  · cases res with
    | true => exact absurd hres (test_overlap_leaves_ne_some_true _ hqb _)
    | false => rw [← hp]

/-- Witness for the C4 mask-gating theorem at a concrete pair with
disjoint masks 1 and 2. -/
theorem mask_gating_witness : (((false, 3) : Bool × ℕ)).1 = false :=
  mask_gating hpmc.opsTrue hpmc.primHit 1 hpmc.Vec3.zero
    (hpmc.fixUnion 1 1 1 hpmc.Quat.one) (hpmc.fixUnion 1 1 2 hpmc.Quat.one) 3
    (false, 3)
    (fun _ _ hk => hk)
    (fun _ _ hk => hk)
    (fun _ _ _ _ => by
      show Nat.land 1 2 = 0
      decide)
    (by decide)

/-- C8: for composites whose hierarchies are each a single leaf node
holding all their members — and whose root bounding boxes do not prune a
truly overlapping pair, the soundness invariant the prebuilt hierarchy
guarantees — the top-level overlap test returns exactly the result of
the exhaustive, unpruned, mask-filtered all-pairs scan. -/
theorem trivial_tree_equivalence (ops : hpmc.OBBOps O)
    (prim : hpmc.PrimOps P) (fuel : ℕ) (r : hpmc.Vec3)
    (a b : hpmc.ShapeUnion O P) (err : ℕ)
    (hal : a.members.tree.numLeaves = 1)
    (hbl : b.members.tree.numLeaves = 1)
    (hbn : b.members.tree.numNodes = 1)
    (hap : a.members.tree.getNumParticles (a.members.tree.leafNode 0) =
      a.members.N)
    (hag : ∀ k, a.members.tree.getParticle (a.members.tree.leafNode 0) k = k)
    (hbp : b.members.tree.getNumParticles 0 = b.members.N)
    (hbg : ∀ k, b.members.tree.getParticle 0 k = k)
    (hobb : hpmc.spec_all_pairs prim r a b = true →
      ops.overlap
        (ops.affineTransform
          (a.members.tree.getOBB (a.members.tree.leafNode 0))
          ((hpmc.Quat.conj b.orientation).mul a.orientation)
          (hpmc.Quat.rotate (hpmc.Quat.conj b.orientation) (hpmc.Vec3.neg r)))
        (b.members.tree.getOBB 0) = true) :
    hpmc.test_overlap ops prim fuel r a b err =
      some (hpmc.spec_all_pairs prim r a b, err) := by
  have hnar : hpmc.test_narrow_phase_overlap prim r a b
      (a.members.tree.leafNode 0) 0 = hpmc.spec_all_pairs prim r a b := by
    have h1 := narrow_iff_exists prim r a b (a.members.tree.leafNode 0) 0
    rw [hap, hbp] at h1
    simp only [hag, hbg] at h1
    rw [Bool.eq_iff_iff, h1]
    unfold hpmc.spec_all_pairs
    rw [decide_eq_true_iff]
  have hq0 : hpmc.query_node ops prim fuel (a.members.tree.leafNode 0) r a b =
      .ok (ops.overlap
        (ops.affineTransform
          (a.members.tree.getOBB (a.members.tree.leafNode 0))
          ((hpmc.Quat.conj b.orientation).mul a.orientation)
          (hpmc.Quat.rotate (hpmc.Quat.conj b.orientation) (hpmc.Vec3.neg r)))
        (b.members.tree.getOBB 0) && hpmc.spec_all_pairs prim r a b) := by
    unfold hpmc.query_node
    dsimp only
    rw [if_pos hbn, hnar]
  have hle : a.members.tree.numLeaves ≤ b.members.tree.numLeaves :=
    le_of_eq (hal.trans hbl.symm)
  have hr1 : List.range 1 = [0] := rfl
  rcases hsp : hpmc.spec_all_pairs prim r a b with _ | _
  · rw [hsp, Bool.and_false] at hq0
    unfold hpmc.test_overlap
    rw [if_pos hle, hal, hr1]
    unfold hpmc.test_overlap_leaves
    rw [hq0]
    rfl
  · rw [hsp, Bool.and_true, hobb hsp] at hq0
    unfold hpmc.test_overlap
    rw [if_pos hle, hal, hr1]
    unfold hpmc.test_overlap_leaves
    rw [hq0]
    rfl

/-- Witness for the C8 trivial-tree equivalence theorem at a concrete
pair of single-leaf single-member composites. -/
theorem trivial_tree_equivalence_witness :
    hpmc.test_overlap hpmc.opsTrue hpmc.primHit 1 hpmc.Vec3.zero
        (hpmc.fixUnion 1 1 1 hpmc.Quat.one) (hpmc.fixUnion 1 1 1 hpmc.Quat.one)
        2 =
      some (hpmc.spec_all_pairs hpmc.primHit hpmc.Vec3.zero
        (hpmc.fixUnion 1 1 1 hpmc.Quat.one) (hpmc.fixUnion 1 1 1 hpmc.Quat.one),
        2) :=
  trivial_tree_equivalence hpmc.opsTrue hpmc.primHit 1 hpmc.Vec3.zero
    (hpmc.fixUnion 1 1 1 hpmc.Quat.one) (hpmc.fixUnion 1 1 1 hpmc.Quat.one) 2
    rfl rfl rfl rfl (fun _ => rfl) rfl (fun _ => rfl) (fun _ => rfl)

/-- C1 (evaluation at the failing input): with a primitive test that
reports one numerical-degeneracy increment per invocation and no
overlap, the top-level test leaves the caller's error counter at its
initial value 5 even though the single executed primitive test produced
one increment — the source sums those increments into the per-pair
local counter of ShapeUnion.h line 214 and discards them, so the err
reference of test_overlap is never written. -/
theorem err_counter_discarded :
    hpmc.test_overlap hpmc.opsTrue hpmc.primErr 1 hpmc.Vec3.zero
        (hpmc.fixUnion 1 1 1 hpmc.Quat.one) (hpmc.fixUnion 1 1 1 hpmc.Quat.one)
        5 = some (false, 5) ∧
    hpmc.narrow_err_total hpmc.primErr hpmc.Vec3.zero
        (hpmc.fixUnion 1 1 1 hpmc.Quat.one) (hpmc.fixUnion 1 1 1 hpmc.Quat.one)
        0 0 = 1 :=
  ⟨by decide, by decide⟩

theorem getLast?_cons_of_ne_nil {α : Type} (x : α) {l : List α}
    (h : l ≠ []) : (x :: l).getLast? = l.getLast? := by
  cases l with
  | nil => exact absurd rfl h
  | cons y ys => rfl

theorem bool_not_true {b : Bool} (h : (!b) = true) : b = false := by
  cases b
  · rfl
  · exact absurd h (by simp)

theorem trav_inv_pop {O : Type} (tb : hpmc.GPUTree O) (top : ℕ)
    (rest : List ℕ) (hlast : (top :: rest).getLast? = some tb.numNodes)
    (hentries : ∀ j, j + 1 < (top :: rest).length →
      tb.isLeaf ((top :: rest).getD j 0) = false)
    (htop : top ≠ tb.numNodes) :
    hpmc.TravInv tb top rest := by
  have hrest : rest ≠ [] := by
    intro h
    subst h
    simp [List.getLast?] at hlast
    exact htop hlast
  have hlen : 2 ≤ (top :: rest).length := by
    cases rest with
    | nil => exact absurd rfl hrest
    | cons z zs =>
      simp only [List.length_cons]
      omega
  refine ⟨hentries 0 (by omega), ?_, ?_⟩
  · rw [← getLast?_cons_of_ne_nil top hrest]
    exact hlast
  · intro j hj
    exact hentries (j + 1) (by simpa using Nat.succ_lt_succ hj)

theorem query_loop_eq_spec (ops : hpmc.OBBOps O) (tb : hpmc.GPUTree O)
    (obb_a : O) (nar : ℕ → Bool)
    (hchild : ∀ n, tb.isLeaf n = false →
      tb.leftChild n ≠ tb.numNodes ∧
      tb.nextSibling (tb.leftChild n) ≠ tb.numNodes) :
    ∀ fuel cur st, hpmc.TravInv tb cur st →
      hpmc.query_loop ops tb obb_a nar fuel cur st =
        hpmc.spec_traversal ops tb obb_a nar tb.numNodes fuel cur st := by
  intro fuel
  induction fuel with
  | zero => intro cur st _; rfl
  | succ n ih =>
    intro cur st hinv
    obtain ⟨hcur, hlast, hentries⟩ := hinv
    obtain ⟨hclN, hcrN⟩ := hchild cur hcur
    have hstne : st ≠ [] := by
      intro h
      rw [h] at hlast
      simp [List.getLast?] at hlast
    rw [hpmc.query_loop.eq_def, hpmc.spec_traversal.eq_def]
    dsimp only
    rcases h1 : ops.overlap obb_a (tb.getOBB (tb.leftChild cur)) &&
        tb.isLeaf (tb.leftChild cur) && nar (tb.leftChild cur) with _ | _
    rotate_left
    · simp [h1]
    simp only [h1, Bool.false_eq_true, if_false]
    rcases h2 : ops.overlap obb_a
        (tb.getOBB (tb.nextSibling (tb.leftChild cur))) &&
        tb.isLeaf (tb.nextSibling (tb.leftChild cur)) &&
        nar (tb.nextSibling (tb.leftChild cur)) with _ | _
    rotate_left
    · simp [h2]
    simp only [h2, Bool.false_eq_true, if_false]
    rcases htl : ops.overlap obb_a (tb.getOBB (tb.leftChild cur)) &&
        !tb.isLeaf (tb.leftChild cur) with _ | _ <;>
      rcases htr : ops.overlap obb_a
          (tb.getOBB (tb.nextSibling (tb.leftChild cur))) &&
          !tb.isLeaf (tb.nextSibling (tb.leftChild cur)) with _ | _
    · simp only [htl, htr, Bool.or_self, Bool.false_eq_true, if_false]
      cases st with
      | nil => rfl
      | cons top rest =>
        by_cases htop : top = tb.numNodes
        · simp [htop]
        · simp only [if_neg htop]
          exact ih top rest (trav_inv_pop tb top rest hlast hentries htop)
    · simp only [htl, htr]
      simp [hcrN]
      exact ih _ _ ⟨bool_not_true ((Bool.and_eq_true _ _).mp htr).2,
        hlast, hentries⟩
    · simp only [htl, htr]
      simp [hclN]
      exact ih _ _ ⟨bool_not_true ((Bool.and_eq_true _ _).mp htl).2,
        hlast, hentries⟩
    · simp only [htl, htr]
      by_cases hlen : 64 ≤ st.length
      · simp [hlen]
      · simp [hlen, hclN]
        have hcl : tb.isLeaf (tb.leftChild cur) = false :=
          bool_not_true ((Bool.and_eq_true _ _).mp htl).2
        have hcr : tb.isLeaf (tb.nextSibling (tb.leftChild cur)) = false :=
          bool_not_true ((Bool.and_eq_true _ _).mp htr).2
        refine ih _ _ ⟨hcl, ?_, ?_⟩
        · rw [getLast?_cons_of_ne_nil _ hstne]
          exact hlast
        · intro j hj
          cases j with
          | zero => exact hcr
          | succ k =>
            exact hentries k (by simpa using Nat.lt_of_succ_lt_succ hj)

/-- C6: the dual-tree traversal refines the spec's transition system —
seeded with the sentinel equal to B's total node count, at each
iteration it pops when neither overlapping child is internal (a pop of
the sentinel ends the loop with false), descends into the single
qualifying child, or descends left and pushes the right child when both
qualify, and it terminates with false exactly by reaching the sentinel
unless a narrow-phase test returned true; formally, on a hierarchy whose
root is internal and whose internal nodes have children distinct from
the sentinel value, query_node coincides with the spec-side
transition-system traversal for every fuel. -/
theorem traversal_refines_spec (ops : hpmc.OBBOps O) (prim : hpmc.PrimOps P)
    (fuel nA : ℕ) (r : hpmc.Vec3) (a b : hpmc.ShapeUnion O P)
    (hroot : b.members.tree.numNodes ≠ 1 → b.members.tree.isLeaf 0 = false)
    (hchild : ∀ n, b.members.tree.isLeaf n = false →
      b.members.tree.leftChild n ≠ b.members.tree.numNodes ∧
      b.members.tree.nextSibling (b.members.tree.leftChild n) ≠
        b.members.tree.numNodes) :
    hpmc.query_node ops prim fuel nA r a b =
      hpmc.spec_query_node ops prim fuel nA r a b := by
  unfold hpmc.query_node hpmc.spec_query_node
  dsimp only
  by_cases hn : b.members.tree.numNodes = 1
  · rw [if_pos hn, if_pos hn]
  · rw [if_neg hn, if_neg hn]
    apply query_loop_eq_spec _ _ _ _ hchild
    refine ⟨hroot hn, rfl, ?_⟩
    intro j hj
    simp at hj

/-- Witness for the C6 refinement theorem at a concrete three-node
hierarchy (internal root, two leaf children). -/
theorem traversal_refines_spec_witness :
    hpmc.query_node hpmc.opsTrue hpmc.primHit 4 0 hpmc.Vec3.zero
        hpmc.fixUnionDeep hpmc.fixUnionDeep =
      hpmc.spec_query_node hpmc.opsTrue hpmc.primHit 4 0 hpmc.Vec3.zero
        hpmc.fixUnionDeep hpmc.fixUnionDeep :=
  traversal_refines_spec hpmc.opsTrue hpmc.primHit 4 0 hpmc.Vec3.zero
    hpmc.fixUnionDeep hpmc.fixUnionDeep
    (fun _ => rfl)
    (fun _ _ => ⟨by show (1 : ℕ) ≠ 3; decide, by show (2 : ℕ) ≠ 3; decide⟩)

theorem stack_inv_pop {O : Type} (tb : hpmc.GPUTree O) (d : ℕ → ℕ)
    (top : ℕ) (rest : List ℕ)
    (hlast : (top :: rest).getLast? = some tb.numNodes)
    (hentries : ∀ j, j + 1 < (top :: rest).length →
      (top :: rest).length - 1 - j ≤ d ((top :: rest).getD j 0) ∧
      tb.isLeaf ((top :: rest).getD j 0) = false)
    (htop : top ≠ tb.numNodes) :
    hpmc.StackInv tb d top rest := by
  have hrest : rest ≠ [] := by
    intro h
    subst h
    simp [List.getLast?] at hlast
    exact htop hlast
  have hlen2 : 2 ≤ (top :: rest).length := by
    cases rest with
    | nil => exact absurd rfl hrest
    | cons z zs =>
      simp only [List.length_cons]
      omega
  obtain ⟨htopd, htopleaf⟩ := hentries 0 (by omega)
  refine ⟨htopleaf, hrest, ?_, ?_, ?_⟩
  · rw [← getLast?_cons_of_ne_nil top hrest]
    exact hlast
  · simp only [List.length_cons, List.getD_cons_zero] at htopd
    omega
  · intro j hj
    have := hentries (j + 1) (by simp only [List.length_cons]; omega)
    simp only [List.length_cons, List.getD_cons_succ] at this
    refine ⟨?_, this.2⟩
    have h1 := this.1
    omega

theorem query_loop_no_overflow (ops : hpmc.OBBOps O) (tb : hpmc.GPUTree O)
    (obb_a : O) (nar : ℕ → Bool) (d : ℕ → ℕ)
    (hdl : ∀ n, tb.isLeaf n = false → d (tb.leftChild n) = d n + 1)
    (hdr : ∀ n, tb.isLeaf n = false →
      d (tb.nextSibling (tb.leftChild n)) = d n + 1)
    (hbound : ∀ n, d n ≤ 63) :
    ∀ fuel cur st, hpmc.StackInv tb d cur st →
      hpmc.query_loop ops tb obb_a nar fuel cur st ≠ .overflow := by
  intro fuel
  induction fuel with
  | zero => intro cur st _ h; simp [hpmc.query_loop] at h
  | succ n ih =>
    intro cur st hinv h
    obtain ⟨hcur, hstne, hlast, hlen, hentries⟩ := hinv
    rw [hpmc.query_loop.eq_def] at h
    dsimp only at h
    rcases h1 : ops.overlap obb_a (tb.getOBB (tb.leftChild cur)) &&
        tb.isLeaf (tb.leftChild cur) && nar (tb.leftChild cur) with _ | _
    rotate_left
    · simp [h1] at h
    rcases h2 : ops.overlap obb_a
        (tb.getOBB (tb.nextSibling (tb.leftChild cur))) &&
        tb.isLeaf (tb.nextSibling (tb.leftChild cur)) &&
        nar (tb.nextSibling (tb.leftChild cur)) with _ | _
    rotate_left
    · simp [h1, h2] at h
    simp only [h1, h2, Bool.false_eq_true, if_false] at h
    rcases htl : ops.overlap obb_a (tb.getOBB (tb.leftChild cur)) &&
        !tb.isLeaf (tb.leftChild cur) with _ | _ <;>
      rcases htr : ops.overlap obb_a
          (tb.getOBB (tb.nextSibling (tb.leftChild cur))) &&
          !tb.isLeaf (tb.nextSibling (tb.leftChild cur)) with _ | _
    · simp only [htl, htr, Bool.or_self, Bool.false_eq_true, if_false] at h
      rcases st with _ | ⟨top, rest⟩
      · exact hstne rfl
      · dsimp only at h
        by_cases htop : top = tb.numNodes
        · rw [if_pos htop] at h
          exact hpmc.StackRes.noConfusion h
        · rw [if_neg htop] at h
          exact ih top rest (stack_inv_pop tb d top rest hlast hentries htop) h
    · simp only [htl, htr, Bool.false_or, eq_self_iff_true, if_true,
        Bool.false_and, Bool.false_eq_true, if_false] at h
      have hcr : tb.isLeaf (tb.nextSibling (tb.leftChild cur)) = false :=
        bool_not_true ((Bool.and_eq_true _ _).mp htr).2
      split at h
      · exact hpmc.StackRes.noConfusion h
      · refine ih _ _ ⟨hcr, hstne, hlast, ?_, hentries⟩ h
        rw [hdr cur hcur]
        omega
    · simp only [htl, htr, Bool.or_false, eq_self_iff_true, if_true,
        Bool.and_false, Bool.false_eq_true, if_false] at h
      have hcl : tb.isLeaf (tb.leftChild cur) = false :=
        bool_not_true ((Bool.and_eq_true _ _).mp htl).2
      split at h
      · exact hpmc.StackRes.noConfusion h
      · refine ih _ _ ⟨hcl, hstne, hlast, ?_, hentries⟩ h
        rw [hdl cur hcur]
        omega
    · simp only [htl, htr, Bool.or_self, eq_self_iff_true, if_true,
        Bool.and_self] at h
      have hcl : tb.isLeaf (tb.leftChild cur) = false :=
        bool_not_true ((Bool.and_eq_true _ _).mp htl).2
      have hcr : tb.isLeaf (tb.nextSibling (tb.leftChild cur)) = false :=
        bool_not_true ((Bool.and_eq_true _ _).mp htr).2
      have hdepth : d cur + 2 ≤ 63 := by
        have hgrand := hdl (tb.leftChild cur) hcl
        have hb := hbound (tb.leftChild (tb.leftChild cur))
        rw [hgrand, hdl cur hcur] at hb
        omega
      by_cases hlen64 : 64 ≤ st.length
      · omega
      · rw [if_neg hlen64] at h
        split at h
        · exact hpmc.StackRes.noConfusion h
        · refine ih _ _ ⟨hcl, by simp, ?_, ?_, ?_⟩ h
          · rw [getLast?_cons_of_ne_nil _ hstne]
            exact hlast
          · simp only [List.length_cons]
            rw [hdl cur hcur]
            omega
          · intro j hj
            cases j with
            | zero =>
              simp only [List.getD_cons_zero, List.length_cons]
              rw [hdr cur hcur]
              exact ⟨by omega, hcr⟩
            | succ k =>
              simp only [List.getD_cons_succ, List.length_cons]
              simp only [List.length_cons] at hj
              have hk := hentries k (by omega)
              exact ⟨by omega, hk.2⟩

/-- C9: under the documented precondition that the traversed hierarchy
is depth-consistent with every node depth below the 64-entry capacity,
the traversal never commits an out-of-bounds stack access — every push
lands inside the 64-entry array and every pop reads a previously pushed
entry or the seeded sentinel, so the overflow outcome (the model of the
source's unchecked pointer arithmetic leaving the array) is unreachable;
a deeper tree is an unchecked precondition violation, not a handled
error, as the source contains no bounds test. -/
theorem query_node_no_overflow (ops : hpmc.OBBOps O) (prim : hpmc.PrimOps P)
    (fuel nA : ℕ) (r : hpmc.Vec3) (a b : hpmc.ShapeUnion O P) (d : ℕ → ℕ)
    (hwf : hpmc.WFDepth b.members.tree d) :
    hpmc.query_node ops prim fuel nA r a b ≠ .overflow := by
  unfold hpmc.query_node
  dsimp only
  by_cases hn : b.members.tree.numNodes = 1
  · rw [if_pos hn]
    intro h
    exact hpmc.StackRes.noConfusion h
  · rw [if_neg hn]
    apply query_loop_no_overflow _ _ _ _ d hwf.depth_left hwf.depth_right
      hwf.depth_bound
    refine ⟨hwf.root_internal hn, by simp, rfl, ?_, ?_⟩
    · simp only [List.length_singleton]
      omega
    · intro j hj
      simp at hj

/-- Witness for the C9 stack-safety theorem at a concrete three-node
hierarchy with its depth function. -/
theorem query_node_no_overflow_witness :
    hpmc.query_node hpmc.opsTrue hpmc.primHit 4 0 hpmc.Vec3.zero
      hpmc.fixUnionDeep hpmc.fixUnionDeep ≠ .overflow :=
  query_node_no_overflow hpmc.opsTrue hpmc.primHit 4 0 hpmc.Vec3.zero
    hpmc.fixUnionDeep hpmc.fixUnionDeep hpmc.fixDepth
    { root_internal := fun _ => rfl
      depth_left := by
        intro n h
        have hn0 : n = 0 := by simpa using of_decide_eq_false h
        subst hn0
        rfl
      depth_right := by
        intro n h
        have hn0 : n = 0 := by simpa using of_decide_eq_false h
        subst hn0
        rfl
      depth_bound := by
        intro n
        by_cases h : n = 0 <;> simp [hpmc.fixDepth, h] }
